import Mathlib

/-!
Shallow embedding of the cutting-stock core of `src/app.py`:
the combination enumerator `find_all_cuts` and the catalog suggester
`suggest_optimal_quantities`, together with proofs of the specified
properties.

Modelling conventions:
* Python dicts with int keys and values become association lists
  `List (Nat × Nat)`; iteration follows list order, as dict iteration
  follows insertion order.
* `itertools.combinations_with_replacement` becomes `cwr`, generating
  the multisets in the same order as the Python iterator.
* Python float division in the efficiency formula is modelled by exact
  rational division (`ℚ`).  Within one call the denominator
  (`raw_length`) is fixed, so the ordering and equality comparisons the
  code performs on efficiencies coincide with the exact rational ones.
* `results.sort(key=lambda x: (-x['efficiency'], x['waste']))` is a
  stable sort by that key; it is modelled by the stable
  `List.insertionSort` with the corresponding lexicographic relation,
  which computes the same list.
* `desired_cuts[length]` (which would raise `KeyError` on a missing key)
  is modelled by `List.lookup`, with the missing-key branch mapped to
  `false`; the branch is proved unreachable below.
-/

namespace Traverza

/-- `itertools.combinations_with_replacement(pool, k)`: all multisets of
size `k`, each non-decreasing in pool order, generated in the same
order as the Python iterator (grouped by the position of the first
chosen element). -/
def cwr {α : Type} : Nat → List α → List (List α)
  | 0, _ => [[]]
  | k + 1, pool =>
      pool.tails.flatMap (fun t =>
        match t with
        | [] => []
        | x :: xs => (cwr k (x :: xs)).map (fun c => x :: c))

/-- One entry of the `results` list built by `find_all_cuts`. -/
structure ScoredResult where
  combination : List Nat
  total_length : Nat
  waste : Int
  efficiency : ℚ
  pieces : Nat
deriving DecidableEq

/-- `[length for length, qty in desired_cuts.items() if qty > 0]` -/
def available_lengths (desired_cuts : List (Nat × Nat)) : List Nat :=
  desired_cuts.filterMap (fun p => if 0 < p.2 then some p.1 else none)

/-- `max_pieces = sum(desired_cuts.values())` -/
def max_pieces (desired_cuts : List (Nat × Nat)) : Nat :=
  (desired_cuts.map (fun p => p.2)).sum

/-- The quantity check on one candidate: for every length occurring in
`combo`, its multiplicity must not exceed `desired_cuts[length]`.
A missing key (Python `KeyError`) is modelled as `false`;
`lookup_defined_on_generated` below shows that branch is unreachable. -/
def quota_ok (desired_cuts : List (Nat × Nat)) (combo : List Nat) : Bool :=
  combo.all (fun length =>
    match List.lookup length desired_cuts with
    | some qty => combo.count length ≤ qty
    | none => false)

/-- The record appended to `results` for a surviving combination. -/
def score (raw_length : Nat) (combo : List Nat) : ScoredResult :=
  { combination := combo
    total_length := combo.sum
    waste := (raw_length : Int) - (combo.sum : Int)
    efficiency := ((combo.sum : ℚ) / (raw_length : ℚ)) * 100
    pieces := combo.length }

/-- The nested generation loop: sizes `1 .. max_pieces`, and for each
size every combination with replacement from the available pool. -/
def all_combos (available : List Nat) (maxp : Nat) : List (List Nat) :=
  (List.range maxp).flatMap (fun i => cwr (i + 1) available)

/-- The sort key `(-efficiency, waste)` compared lexicographically:
`a` precedes `b` when its efficiency is larger, or equal with
waste no larger. -/
def rankLE (a b : ScoredResult) : Prop :=
  if a.efficiency = b.efficiency then a.waste ≤ b.waste
  else b.efficiency < a.efficiency

instance : DecidableRel rankLE := fun a b => by
  unfold rankLE; infer_instance

instance : IsTotal ScoredResult rankLE where
  total a b := by
    unfold rankLE
    rcases eq_or_ne a.efficiency b.efficiency with h | h
    · rw [if_pos h, if_pos h.symm]
      exact le_total a.waste b.waste
    · rw [if_neg h, if_neg (Ne.symm h)]
      exact (lt_or_gt_of_ne h).symm

instance : IsTrans ScoredResult rankLE where
  trans a b c hab hbc := by
    unfold rankLE at hab hbc ⊢
    rcases eq_or_ne a.efficiency b.efficiency with h1 | h1 <;>
      rcases eq_or_ne b.efficiency c.efficiency with h2 | h2
    · rw [if_pos h1] at hab
      rw [if_pos h2] at hbc
      rw [if_pos (h1.trans h2)]
      exact le_trans hab hbc
    · rw [if_neg h2] at hbc
      rw [if_neg (fun h => h2 (h1 ▸ h))]
      exact h1 ▸ hbc
    · rw [if_neg h1] at hab
      rw [if_neg (fun h => h1 (h.trans h2.symm))]
      exact h2 ▸ hab
    · rw [if_neg h1] at hab
      rw [if_neg h2] at hbc
      rw [if_neg (ne_of_gt (lt_trans hbc hab))]
      exact lt_trans hbc hab

/-- `find_all_cuts(raw_length, desired_cuts)` from `src/app.py`. -/
def find_all_cuts (raw_length : Nat) (desired_cuts : List (Nat × Nat)) :
    List ScoredResult :=
  let available := available_lengths desired_cuts
  if available.isEmpty then []
  else
    let results :=
      ((all_combos available (max_pieces desired_cuts)).filter
        (fun combo => combo.sum ≤ raw_length && quota_ok desired_cuts combo)).map
        (score raw_length)
    (results.insertionSort rankLE).take 5

/-- `CUT_LENGTHS` from `src/app.py`. -/
def CUT_LENGTHS : List Nat :=
  [515, 1025, 1145, 1835, 2045, 2075, 2165, 2515, 2835, 3575,
   3695, 3755, 3815, 4085, 4155, 4225, 5015, 5375, 5515, 6000]

/-- The candidates tried by `suggest_optimal_quantities`:
sizes 2 to 4 with replacement from the catalog. -/
def catalog_combos : List (List Nat) :=
  (List.range' 2 3).flatMap (fun k => cwr k CUT_LENGTHS)

/-- One step of the best-tracking loop: skip the candidate unless it
fits, and replace the current best only on strictly larger
efficiency. -/
def best_step (raw_length : Nat) (acc : Option (List Nat) × ℚ)
    (combo : List Nat) : Option (List Nat) × ℚ :=
  if combo.sum ≤ raw_length then
    let efficiency := ((combo.sum : ℚ) / (raw_length : ℚ)) * 100
    if acc.2 < efficiency then (some combo, efficiency) else acc
  else acc

/-- The `best_combo` / `best_efficiency` pair after the full loop
(initially `None` and `0`). -/
def best_combo (raw_length : Nat) : Option (List Nat) × ℚ :=
  catalog_combos.foldl (best_step raw_length) (none, (0 : ℚ))

/-- Keys of an association list, in order. -/
def dict_keys (m : List (Nat × Nat)) : List Nat := m.map (fun p => p.1)

/-- Python dict assignment `m[k] = v`: overwrite in place when the key
exists, append otherwise. -/
def dict_insert (m : List (Nat × Nat)) (k v : Nat) : List (Nat × Nat) :=
  if k ∈ dict_keys m then
    m.map (fun p => if p.1 = k then (k, v) else p)
  else m ++ [(k, v)]

/-- The iteration order of `Counter(combo).items()`: distinct elements
of `combo` in order of first occurrence. -/
def counter_keys (combo : List Nat) : List Nat :=
  combo.foldl (fun ks x => if x ∈ ks then ks else ks ++ [x]) []

/-- `suggest_optimal_quantities(raw_length)` from `src/app.py`:
the all-zero catalog dict, then the winning combination's counts
written over it. -/
def suggest_optimal_quantities (raw_length : Nat) : List (Nat × Nat) :=
  let suggested := CUT_LENGTHS.map (fun length => (length, 0))
  match (best_combo raw_length).1 with
  | none => suggested
  | some combo =>
      (counter_keys combo).foldl
        (fun m length => dict_insert m length (combo.count length)) suggested

/-! ### Generator lemmas -/

theorem length_of_mem_cwr {α : Type} (k : Nat) :
    ∀ (pool c : List α), c ∈ cwr k pool → c.length = k := by
  induction k with
  | zero =>
      intro pool c h
      simp only [cwr, List.mem_singleton] at h
      simp [h]
  | succ k ih =>
      intro pool c h
      simp only [cwr, List.mem_flatMap] at h
      obtain ⟨t, ht, hc⟩ := h
      cases t with
      | nil => simp at hc
      | cons y ys =>
          simp only [List.mem_map] at hc
          obtain ⟨c', hc', rfl⟩ := hc
          simp [ih _ _ hc']

theorem mem_pool_of_mem_cwr {α : Type} (k : Nat) :
    ∀ (pool c : List α), c ∈ cwr k pool → ∀ x ∈ c, x ∈ pool := by
  induction k with
  | zero =>
      intro pool c h
      simp only [cwr, List.mem_singleton] at h
      subst h; simp
  | succ k ih =>
      intro pool c h
      simp only [cwr, List.mem_flatMap] at h
      obtain ⟨t, ht, hc⟩ := h
      have hsub : t ⊆ pool := ((List.mem_tails _ _).mp ht).subset
      cases t with
      | nil => simp at hc
      | cons y ys =>
          simp only [List.mem_map] at hc
          obtain ⟨c', hc', rfl⟩ := hc
          intro x hx
          rcases List.mem_cons.mp hx with rfl | hx'
          · exact hsub (List.mem_cons_self _ _)
          · exact hsub (ih (y :: ys) c' hc' x hx')

theorem mem_all_combos {available : List Nat} {maxp : Nat} {c : List Nat}
    (h : c ∈ all_combos available maxp) :
    (1 ≤ c.length ∧ c.length ≤ maxp) ∧ ∀ x ∈ c, x ∈ available := by
  simp only [all_combos, List.mem_flatMap, List.mem_range] at h
  obtain ⟨i, hi, hc⟩ := h
  have hl := length_of_mem_cwr (i + 1) available c hc
  exact ⟨⟨by omega, by omega⟩, mem_pool_of_mem_cwr (i + 1) available c hc⟩

theorem mem_available_lengths {d : List (Nat × Nat)} {x : Nat}
    (h : x ∈ available_lengths d) : ∃ q, (x, q) ∈ d ∧ 0 < q := by
  simp only [available_lengths, List.mem_filterMap] at h
  obtain ⟨⟨a, b⟩, hab, hx⟩ := h
  by_cases hb : 0 < b
  · rw [if_pos hb] at hx
    obtain rfl := Option.some.inj hx
    exact ⟨b, hab, hb⟩
  · rw [if_neg hb] at hx
    exact absurd hx (by simp)

theorem lookup_isSome_of_mem {d : List (Nat × Nat)} {x q : Nat}
    (h : (x, q) ∈ d) : (List.lookup x d).isSome := by
  induction d with
  | nil => simp at h
  | cons p d ih =>
      obtain ⟨k, v⟩ := p
      rcases List.mem_cons.mp h with heq | h'
      · injection heq with h1 h2
        subst h1
        simp [List.lookup]
      · by_cases hx : x = k
        · simp [List.lookup, hx]
        · have hbeq : (x == k) = false := by simp [hx]
          simp only [List.lookup, hbeq]
          exact ih h'

/-! ### Shape of `find_all_cuts` -/

theorem find_all_cuts_eq (raw : Nat) (d : List (Nat × Nat)) :
    find_all_cuts raw d = [] ∨
    find_all_cuts raw d =
      (List.insertionSort rankLE
        (((all_combos (available_lengths d) (max_pieces d)).filter
          (fun combo => combo.sum ≤ raw && quota_ok d combo)).map
          (score raw))).take 5 := by
  unfold find_all_cuts
  by_cases he : (available_lengths d).isEmpty <;> simp [he]

theorem mem_find_all_cuts {raw : Nat} {d : List (Nat × Nat)} {r : ScoredResult}
    (h : r ∈ find_all_cuts raw d) :
    ∃ combo, combo ∈ all_combos (available_lengths d) (max_pieces d) ∧
      combo.sum ≤ raw ∧ quota_ok d combo = true ∧ r = score raw combo := by
  rcases find_all_cuts_eq raw d with he | he
  · rw [he] at h; simp at h
  · rw [he] at h
    have h1 := List.take_subset 5 _ h
    have h2 := (List.perm_insertionSort rankLE _).mem_iff.mp h1
    simp only [List.mem_map, List.mem_filter, Bool.and_eq_true] at h2
    obtain ⟨combo, ⟨hmem, hsum, hq⟩, rfl⟩ := h2
    exact ⟨combo, hmem, by simpa using hsum, hq, rfl⟩

theorem sum_pos_of_mem_available {d : List (Nat × Nat)} (hpos : ∀ p ∈ d, 0 < p.1)
    {combo : List Nat} (hlen : 1 ≤ combo.length)
    (hsub : ∀ x ∈ combo, x ∈ available_lengths d) : 0 < combo.sum := by
  cases combo with
  | nil => simp at hlen
  | cons y ys =>
      have hy : y ∈ available_lengths d := hsub y (List.mem_cons_self _ _)
      obtain ⟨q, hq, _⟩ := mem_available_lengths hy
      have h0 : 0 < y := hpos (y, q) hq
      simp only [List.sum_cons]
      omega

/-- Concrete evaluation of the spec's worked example. -/
theorem find_all_cuts_example_eval :
    find_all_cuts 6000 [(3000, 2)] =
      [⟨[3000, 3000], 6000, 0, 100, 2⟩, ⟨[3000], 3000, 3000, 50, 1⟩] := by
  with_unfolding_all rfl

/-! ### Claims about `find_all_cuts` -/

/-- C1: for positive raw length and non-negative desired quantities,
every returned combination has total length at most the raw length, and
uses each length at most as many times as `desired_cuts` allows. -/
theorem returned_combinations_satisfy_constraints
    (raw : Nat) (d : List (Nat × Nat)) (hraw : 0 < raw)
    (r : ScoredResult) (hr : r ∈ find_all_cuts raw d) :
    r.combination.sum ≤ raw ∧
      ∀ l q, List.lookup l d = some q → r.combination.count l ≤ q := by
  obtain ⟨combo, hmem, hsum, hq, rfl⟩ := mem_find_all_cuts hr
  refine ⟨hsum, ?_⟩
  intro l q hlq
  by_cases hl : l ∈ combo
  · have hall := List.all_eq_true.mp hq l hl
    rw [hlq] at hall
    simpa using hall
  · simp [score, List.count_eq_zero_of_not_mem hl]

theorem returned_combinations_satisfy_constraints_w :
    ([3000, 3000] : List Nat).sum ≤ 6000 ∧ List.count 3000 [3000, 3000] ≤ 2 := by
  have hr : (⟨[3000, 3000], 6000, 0, 100, 2⟩ : ScoredResult) ∈
      find_all_cuts 6000 [(3000, 2)] := by
    rw [find_all_cuts_example_eval]
    exact List.mem_cons_self _ _
  have h := returned_combinations_satisfy_constraints 6000 [(3000, 2)]
    (by norm_num) _ hr
  exact ⟨h.1, h.2 3000 2 (by decide)⟩

/-- C2: at most five results are returned, sorted with non-increasing
efficiency, and non-decreasing waste among equal efficiencies. -/
theorem results_sorted_and_top5 (raw : Nat) (d : List (Nat × Nat))
    (hraw : 0 < raw) :
    (find_all_cuts raw d).length ≤ 5 ∧
      (find_all_cuts raw d).Pairwise
        (fun a b => b.efficiency ≤ a.efficiency ∧
          (a.efficiency = b.efficiency → a.waste ≤ b.waste)) := by
  have hrank : ∀ a b : ScoredResult, rankLE a b →
      b.efficiency ≤ a.efficiency ∧
        (a.efficiency = b.efficiency → a.waste ≤ b.waste) := by
    intro a b hab
    unfold rankLE at hab
    by_cases he : a.efficiency = b.efficiency
    · rw [if_pos he] at hab
      exact ⟨le_of_eq he.symm, fun _ => hab⟩
    · rw [if_neg he] at hab
      exact ⟨le_of_lt hab, fun h => absurd h he⟩
  rcases find_all_cuts_eq raw d with he | he <;> rw [he]
  · simp
  · constructor
    · simpa [List.length_take] using Nat.min_le_left 5 _
    · have hs := List.sorted_insertionSort rankLE
        (((all_combos (available_lengths d) (max_pieces d)).filter
          (fun combo => combo.sum ≤ raw && quota_ok d combo)).map (score raw))
      have ht := hs.sublist (List.take_sublist 5 _)
      exact ht.imp (fun h => hrank _ _ h)

theorem results_sorted_and_top5_w :
    (find_all_cuts 6000 [(3000, 2)]).length ≤ 5 ∧
      (find_all_cuts 6000 [(3000, 2)]).Pairwise
        (fun a b => b.efficiency ≤ a.efficiency ∧
          (a.efficiency = b.efficiency → a.waste ≤ b.waste)) :=
  results_sorted_and_top5 6000 [(3000, 2)] (by norm_num)

/-- C3: every returned record's derived fields are consistent:
total is the sum of the pieces, waste is the non-negative remainder,
efficiency is `100·total/raw` and lies in `(0, 100]`, and the piece
count is the combination's length. -/
theorem scored_result_fields (raw : Nat) (d : List (Nat × Nat))
    (hraw : 0 < raw) (hpos : ∀ p ∈ d, 0 < p.1)
    (r : ScoredResult) (hr : r ∈ find_all_cuts raw d) :
    r.total_length = r.combination.sum ∧
    r.waste = (raw : Int) - (r.total_length : Int) ∧ 0 ≤ r.waste ∧
    r.efficiency = 100 * (r.total_length : ℚ) / (raw : ℚ) ∧
    0 < r.efficiency ∧ r.efficiency ≤ 100 ∧
    r.pieces = r.combination.length := by
  obtain ⟨combo, hmem, hsum, hq, rfl⟩ := mem_find_all_cuts hr
  obtain ⟨⟨hlen, _⟩, hsub⟩ := mem_all_combos hmem
  have hspos : 0 < combo.sum := sum_pos_of_mem_available hpos hlen hsub
  have hrq : (0 : ℚ) < (raw : ℚ) := by exact_mod_cast hraw
  have hsq : (0 : ℚ) < (combo.sum : ℚ) := by exact_mod_cast hspos
  refine ⟨rfl, rfl, ?_, ?_, ?_, ?_, rfl⟩
  · simp only [score]
    omega
  · simp only [score]
    rw [div_mul_eq_mul_div, mul_comm]
  · simp only [score]
    exact mul_pos (div_pos hsq hrq) (by norm_num)
  · simp only [score]
    have h1 : (combo.sum : ℚ) / (raw : ℚ) ≤ 1 :=
      (div_le_one hrq).mpr (by exact_mod_cast hsum)
    calc (combo.sum : ℚ) / (raw : ℚ) * 100 ≤ 1 * 100 :=
          mul_le_mul_of_nonneg_right h1 (by norm_num)
      _ = 100 := one_mul _

theorem scored_result_fields_w :
    (⟨[3000, 3000], 6000, 0, 100, 2⟩ : ScoredResult).total_length =
      (⟨[3000, 3000], 6000, 0, 100, 2⟩ : ScoredResult).combination.sum ∧
    (⟨[3000, 3000], 6000, 0, 100, 2⟩ : ScoredResult).waste =
      (6000 : Int) -
        ((⟨[3000, 3000], 6000, 0, 100, 2⟩ : ScoredResult).total_length : Int) ∧
    0 ≤ (⟨[3000, 3000], 6000, 0, 100, 2⟩ : ScoredResult).waste ∧
    (⟨[3000, 3000], 6000, 0, 100, 2⟩ : ScoredResult).efficiency =
      100 * ((⟨[3000, 3000], 6000, 0, 100, 2⟩ : ScoredResult).total_length : ℚ) /
        ((6000 : Nat) : ℚ) ∧
    0 < (⟨[3000, 3000], 6000, 0, 100, 2⟩ : ScoredResult).efficiency ∧
    (⟨[3000, 3000], 6000, 0, 100, 2⟩ : ScoredResult).efficiency ≤ 100 ∧
    (⟨[3000, 3000], 6000, 0, 100, 2⟩ : ScoredResult).pieces =
      (⟨[3000, 3000], 6000, 0, 100, 2⟩ : ScoredResult).combination.length := by
  have hr : (⟨[3000, 3000], 6000, 0, 100, 2⟩ : ScoredResult) ∈
      find_all_cuts 6000 [(3000, 2)] := by
    rw [find_all_cuts_example_eval]
    exact List.mem_cons_self _ _
  exact scored_result_fields 6000 [(3000, 2)] (by norm_num) (by decide) _ hr

/-- C4 (counterexample): the spec's worked example claims a single
result, but `find_all_cuts(6000, {3000: 2})` returns two results —
the size-1 combination `(3000,)` is also generated and kept. -/
theorem example_6000_not_single_result :
    ¬ (find_all_cuts 6000 [(3000, 2)]).length = 1 := by
  rw [find_all_cuts_example_eval]
  decide

/-- C4 (amended): `find_all_cuts(6000, {3000: 2})` returns exactly two
results; the best is `(3000, 3000)` with total 6000, waste 0 and
efficiency 100, followed by `(3000,)` with total 3000, waste 3000 and
efficiency 50. -/
theorem example_6000_two_results :
    find_all_cuts 6000 [(3000, 2)] =
      [⟨[3000, 3000], 6000, 0, 100, 2⟩, ⟨[3000], 3000, 3000, 50, 1⟩] :=
  find_all_cuts_example_eval

/-- C8: when no desired length has positive quantity — in particular for
an empty mapping or an all-zero mapping — the result is empty and no
error is raised. -/
theorem empty_when_no_positive_quantity (L : Nat) (hL : 0 < L)
    (d : List (Nat × Nat)) (h : ∀ p ∈ d, ¬ 0 < p.2) :
    find_all_cuts L d = [] := by
  have hav : available_lengths d = [] := by
    simp only [available_lengths, List.filterMap_eq_nil_iff]
    intro p hp
    simp [h p hp]
  unfold find_all_cuts
  simp [hav]

theorem empty_when_no_positive_quantity_w :
    0 < 7 ∧ find_all_cuts 7 [(3000, 0)] = [] ∧ find_all_cuts 7 [] = [] :=
  ⟨by decide,
    empty_when_no_positive_quantity 7 (by decide) [(3000, 0)] (by decide),
    empty_when_no_positive_quantity 7 (by decide) [] (by decide)⟩

/-- C10: every length occurring in any generated candidate combination
is a key of `desired_cuts`, so the `desired_cuts[length]` lookup in the
validity check is always defined and the missing-key branch of the
embedded lookup is unreachable. -/
theorem lookup_defined_on_generated (d : List (Nat × Nat)) (combo : List Nat)
    (hc : combo ∈ all_combos (available_lengths d) (max_pieces d))
    (l : Nat) (hl : l ∈ combo) : (List.lookup l d).isSome := by
  have hx := (mem_all_combos hc).2 l hl
  obtain ⟨q, hq, _⟩ := mem_available_lengths hx
  exact lookup_isSome_of_mem hq

theorem lookup_defined_on_generated_w :
    (List.lookup 3000 [((3000 : Nat), (2 : Nat))]).isSome :=
  lookup_defined_on_generated [(3000, 2)] [3000] (by decide) 3000 (by decide)

/-! ### The suggester's search -/

/-- The efficiency the suggester computes for a candidate. -/
def eff (raw : Nat) (c : List Nat) : ℚ := ((c.sum : ℚ) / (raw : ℚ)) * 100

/-- The candidates that fit within the raw length, in generation
order. -/
def feasible_catalog_combos (raw : Nat) : List (List Nat) :=
  catalog_combos.filter (fun c => c.sum ≤ raw)

/-- The largest efficiency over a candidate list (0 for the empty
list, matching the loop's initial `best_efficiency`). -/
def max_eff (raw : Nat) (l : List (List Nat)) : ℚ :=
  (l.map (eff raw)).foldl max 0

theorem eff_nonneg (raw : Nat) (c : List Nat) : 0 ≤ eff raw c :=
  mul_nonneg (div_nonneg (Nat.cast_nonneg _) (Nat.cast_nonneg _)) (by norm_num)

theorem eff_pos {raw : Nat} (hraw : 0 < raw) {c : List Nat}
    (hc : 0 < c.sum) : 0 < eff raw c := by
  have h1 : (0 : ℚ) < (c.sum : ℚ) := by exact_mod_cast hc
  have h2 : (0 : ℚ) < (raw : ℚ) := by exact_mod_cast hraw
  exact mul_pos (div_pos h1 h2) (by norm_num)

theorem foldl_max_max (l : List ℚ) :
    ∀ a b : ℚ, l.foldl max (max a b) = max a (l.foldl max b) := by
  induction l with
  | nil => intro a b; rfl
  | cons q l ih =>
      intro a b
      simp only [List.foldl_cons]
      rw [max_assoc, ih]

theorem init_le_foldl_max (l : List ℚ) : ∀ a : ℚ, a ≤ l.foldl max a := by
  induction l with
  | nil => intro a; exact le_refl a
  | cons q l ih =>
      intro a
      exact le_trans (le_max_left a q) (ih (max a q))

theorem le_foldl_max (l : List ℚ) :
    ∀ (a x : ℚ), x ∈ l → x ≤ l.foldl max a := by
  induction l with
  | nil => intro a x hx; simp at hx
  | cons q l ih =>
      intro a x hx
      rcases List.mem_cons.mp hx with rfl | hx'
      · exact le_trans (le_max_right a x)
          (init_le_foldl_max l (max a x))
      · exact ih (max a q) x hx'

theorem foldl_max_attained (l : List ℚ) :
    ∀ a : ℚ, l.foldl max a = a ∨ ∃ x ∈ l, l.foldl max a = x := by
  induction l with
  | nil => intro a; exact Or.inl rfl
  | cons q l ih =>
      intro a
      rcases ih (max a q) with h | ⟨x, hx, h⟩
      · rcases max_choice a q with hm | hm
        · exact Or.inl (by rw [List.foldl_cons, h, hm])
        · exact Or.inr ⟨q, List.mem_cons_self _ _,
            by rw [List.foldl_cons, h, hm]⟩
      · exact Or.inr ⟨x, List.mem_cons_of_mem _ hx,
          by rw [List.foldl_cons, h]⟩

theorem max_eff_cons (raw : Nat) (x : List Nat) (l : List (List Nat)) :
    max_eff raw (x :: l) = max (eff raw x) (max_eff raw l) := by
  unfold max_eff
  simp only [List.map_cons, List.foldl_cons]
  rw [max_comm 0 (eff raw x), foldl_max_max]

theorem eff_le_max_eff (raw : Nat) {c : List Nat} {l : List (List Nat)}
    (h : c ∈ l) : eff raw c ≤ max_eff raw l :=
  le_foldl_max _ 0 _ (List.mem_map_of_mem _ h)

theorem max_eff_attained (raw : Nat) (l : List (List Nat)) :
    max_eff raw l = 0 ∨ ∃ c ∈ l, max_eff raw l = eff raw c := by
  unfold max_eff
  rcases foldl_max_attained (l.map (eff raw)) 0 with h | ⟨x, hx, h⟩
  · exact Or.inl h
  · obtain ⟨c, hc, rfl⟩ := List.mem_map.mp hx
    exact Or.inr ⟨c, hc, h⟩

theorem find?_congr_mem {α : Type} {p q : α → Bool} :
    ∀ l : List α, (∀ x ∈ l, p x = q x) → l.find? p = l.find? q := by
  intro l
  induction l with
  | nil => intro h; rfl
  | cons x l ih =>
      intro h
      have hx := h x (List.mem_cons_self _ _)
      by_cases hp : p x
      · rw [List.find?_cons_of_pos _ hp, List.find?_cons_of_pos _ (hx ▸ hp)]
      · rw [List.find?_cons_of_neg _ hp,
          List.find?_cons_of_neg _ (fun hq => hp (hx.symm ▸ hq)),
          ih (fun y hy => h y (List.mem_cons_of_mem _ hy))]

/-! ### Catalog candidate bounds -/

theorem cut_lengths_ge : ∀ x ∈ CUT_LENGTHS, 515 ≤ x := by decide

theorem cut_lengths_nodup : CUT_LENGTHS.Nodup := by decide

theorem mul_length_le_sum :
    ∀ {c : List Nat}, (∀ x ∈ c, 515 ≤ x) → 515 * c.length ≤ c.sum := by
  intro c
  induction c with
  | nil => simp
  | cons y ys ih =>
      intro h
      have h1 := h y (List.mem_cons_self _ _)
      have h2 := ih (fun x hx => h x (List.mem_cons_of_mem _ hx))
      simp only [List.length_cons, List.sum_cons, Nat.mul_succ]
      omega

theorem catalog_combo_bounds {c : List Nat} (h : c ∈ catalog_combos) :
    1030 ≤ c.sum ∧ (2 ≤ c.length ∧ c.length ≤ 4) ∧
      ∀ x ∈ c, x ∈ CUT_LENGTHS := by
  simp only [catalog_combos, List.mem_flatMap] at h
  obtain ⟨k, hk, hc⟩ := h
  have hk' : 2 ≤ k ∧ k < 5 := by simpa using List.mem_range'_1.mp hk
  have hlen := length_of_mem_cwr k _ _ hc
  have hsub := mem_pool_of_mem_cwr k _ _ hc
  have hmin : ∀ x ∈ c, 515 ≤ x := fun x hx => cut_lengths_ge x (hsub x hx)
  have hsum : 515 * c.length ≤ c.sum := mul_length_le_sum hmin
  have h2 : 1030 ≤ 515 * c.length := by
    calc 1030 = 515 * 2 := rfl
      _ ≤ 515 * c.length := Nat.mul_le_mul_left _ (by omega)
  exact ⟨by omega, ⟨by omega, by omega⟩, hsub⟩

/-! ### The best-tracking loop picks the first maximal candidate -/

theorem best_step_feasible (raw : Nat) (acc : Option (List Nat) × ℚ)
    (x : List Nat) (hx : x.sum ≤ raw) :
    best_step raw acc x =
      if acc.2 < eff raw x then (some x, eff raw x) else acc := by
  unfold best_step eff
  rw [if_pos hx]

theorem best_step_infeasible (raw : Nat) (acc : Option (List Nat) × ℚ)
    (x : List Nat) (hx : ¬ x.sum ≤ raw) : best_step raw acc x = acc := by
  unfold best_step
  rw [if_neg hx]

theorem foldl_best_step_spec (raw : Nat) (l : List (List Nat)) :
    ∀ (b₀ : Option (List Nat)) (e₀ : ℚ),
      (l.foldl (best_step raw) (b₀, e₀)).1 =
        ((l.filter (fun c => c.sum ≤ raw)).find?
          (fun c =>
            decide (max_eff raw (l.filter (fun c => c.sum ≤ raw)) ≤ eff raw c) &&
            decide (e₀ < eff raw c))).or b₀ := by
  induction l with
  | nil => intro b₀ e₀; rfl
  | cons x l ih =>
      intro b₀ e₀
      simp only [List.foldl_cons]
      by_cases hx : x.sum ≤ raw
      · have hfil : (x :: l).filter (fun c => decide (c.sum ≤ raw)) =
            x :: l.filter (fun c => decide (c.sum ≤ raw)) := by
          simp [List.filter_cons, hx]
        rw [best_step_feasible raw (b₀, e₀) x hx, hfil, max_eff_cons]
        by_cases hlt : (b₀, e₀).2 < eff raw x
        · rw [if_pos hlt]
          have hlt' : e₀ < eff raw x := hlt
          rw [ih (some x) (eff raw x)]
          by_cases hM : max_eff raw (l.filter (fun c => decide (c.sum ≤ raw))) ≤
              eff raw x
          · rw [max_eq_left hM]
            rw [List.find?_cons_of_pos _ (by simp [hlt'])]
            have hnone : (l.filter (fun c => decide (c.sum ≤ raw))).find?
                (fun c =>
                  decide (max_eff raw (l.filter (fun c => decide (c.sum ≤ raw))) ≤
                    eff raw c) &&
                  decide (eff raw x < eff raw c)) = none := by
              rw [List.find?_eq_none]
              intro c hc
              simp only [Bool.and_eq_true, decide_eq_true_eq, not_and]
              intro _ hcx
              exact absurd (lt_of_le_of_lt hM hcx)
                (not_lt.mpr (eff_le_max_eff raw hc))
            rw [hnone]
            rfl
          · push_neg at hM
            rw [max_eq_right (le_of_lt hM)]
            rw [List.find?_cons_of_neg _ (by simp [not_le.mpr hM])]
            have hcongr : (l.filter (fun c => decide (c.sum ≤ raw))).find?
                  (fun c =>
                    decide (max_eff raw (l.filter (fun c => decide (c.sum ≤ raw))) ≤
                      eff raw c) &&
                    decide (eff raw x < eff raw c)) =
                (l.filter (fun c => decide (c.sum ≤ raw))).find?
                  (fun c =>
                    decide (max_eff raw (l.filter (fun c => decide (c.sum ≤ raw))) ≤
                      eff raw c) &&
                    decide (e₀ < eff raw c)) := by
              apply find?_congr_mem
              intro c hc
              by_cases hMc : max_eff raw (l.filter (fun c => decide (c.sum ≤ raw))) ≤
                  eff raw c
              · have h1 : eff raw x < eff raw c := lt_of_lt_of_le hM hMc
                have h2 : e₀ < eff raw c := lt_trans hlt' h1
                simp [hMc, h1, h2]
              · simp [hMc]
            rw [hcongr]
            have hsome : ((l.filter (fun c => decide (c.sum ≤ raw))).find?
                (fun c =>
                  decide (max_eff raw (l.filter (fun c => decide (c.sum ≤ raw))) ≤
                    eff raw c) &&
                  decide (e₀ < eff raw c))).isSome := by
              rcases max_eff_attained raw
                  (l.filter (fun c => decide (c.sum ≤ raw))) with h0 | ⟨c, hc, hceq⟩
              · exact absurd (h0 ▸ hM) (not_lt.mpr (eff_nonneg raw x))
              · rw [List.find?_isSome]
                refine ⟨c, hc, ?_⟩
                have h2 : e₀ < eff raw c := lt_trans hlt' (hceq ▸ hM)
                simp [hceq.le, h2]
            obtain ⟨c, hc⟩ := Option.isSome_iff_exists.mp hsome
            rw [hc]
            rfl
        · rw [if_neg hlt]
          have hle : eff raw x ≤ e₀ := not_lt.mp hlt
          rw [ih b₀ e₀]
          rw [List.find?_cons_of_neg _ (by simp [not_lt.mpr hle])]
          have hcongr : (l.filter (fun c => decide (c.sum ≤ raw))).find?
                (fun c =>
                  decide (max_eff raw (l.filter (fun c => decide (c.sum ≤ raw))) ≤
                    eff raw c) &&
                  decide (e₀ < eff raw c)) =
              (l.filter (fun c => decide (c.sum ≤ raw))).find?
                (fun c =>
                  decide (max (eff raw x)
                      (max_eff raw (l.filter (fun c => decide (c.sum ≤ raw)))) ≤
                    eff raw c) &&
                  decide (e₀ < eff raw c)) := by
            apply find?_congr_mem
            intro c hc
            by_cases he : e₀ < eff raw c
            · have hxc : eff raw x < eff raw c := lt_of_le_of_lt hle he
              by_cases hMc : max_eff raw (l.filter (fun c => decide (c.sum ≤ raw))) ≤
                  eff raw c
              · simp [he, hMc, max_le (le_of_lt hxc) hMc]
              · have hmax : ¬ max (eff raw x)
                    (max_eff raw (l.filter (fun c => decide (c.sum ≤ raw)))) ≤
                      eff raw c :=
                  fun hm => hMc (le_trans (le_max_right _ _) hm)
                simp [he, hMc, hmax]
            · simp [he]
          rw [hcongr]
      · have hfil : (x :: l).filter (fun c => decide (c.sum ≤ raw)) =
            l.filter (fun c => decide (c.sum ≤ raw)) := by
          simp [List.filter_cons, hx]
        rw [best_step_infeasible raw (b₀, e₀) x hx, hfil, ih]

theorem best_combo_fst (raw : Nat) :
    (best_combo raw).1 =
      (feasible_catalog_combos raw).find?
        (fun c =>
          decide (max_eff raw (feasible_catalog_combos raw) ≤ eff raw c) &&
          decide (0 < eff raw c)) := by
  unfold best_combo feasible_catalog_combos
  rw [foldl_best_step_spec, Option.or_none]

theorem feasible_pos {raw : Nat} (hraw : 0 < raw) :
    ∀ c ∈ feasible_catalog_combos raw, 0 < eff raw c := by
  intro c hc
  have hcc : c ∈ catalog_combos := (List.mem_filter.mp hc).1
  have h1 := (catalog_combo_bounds hcc).1
  exact eff_pos hraw (by omega)

theorem best_combo_winner {raw : Nat} (hraw : 0 < raw)
    (hne : feasible_catalog_combos raw ≠ []) :
    ∃ c, (feasible_catalog_combos raw).find?
        (fun d =>
          decide (eff raw d = max_eff raw (feasible_catalog_combos raw))) =
          some c ∧
      (best_combo raw).1 = some c := by
  have hpos := feasible_pos hraw
  have hcongr : (feasible_catalog_combos raw).find?
      (fun c =>
        decide (max_eff raw (feasible_catalog_combos raw) ≤ eff raw c) &&
        decide (0 < eff raw c)) =
      (feasible_catalog_combos raw).find?
        (fun d =>
          decide (eff raw d = max_eff raw (feasible_catalog_combos raw))) := by
    apply find?_congr_mem
    intro c hc
    have h1 : eff raw c ≤ max_eff raw (feasible_catalog_combos raw) :=
      eff_le_max_eff raw hc
    by_cases hM : max_eff raw (feasible_catalog_combos raw) ≤ eff raw c
    · simp [hM, hpos c hc, le_antisymm h1 hM,
        lt_of_lt_of_le (hpos c hc) h1]
    · have hne' : eff raw c ≠ max_eff raw (feasible_catalog_combos raw) :=
        fun heq => hM heq.ge
      simp [hM, hne']
  obtain ⟨c₀, hc₀⟩ := List.exists_mem_of_ne_nil _ hne
  have hM0 : 0 < max_eff raw (feasible_catalog_combos raw) :=
    lt_of_lt_of_le (hpos c₀ hc₀) (eff_le_max_eff raw hc₀)
  rcases max_eff_attained raw (feasible_catalog_combos raw) with h0 | ⟨cm, hcm, hceq⟩
  · rw [h0] at hM0
    exact absurd hM0 (lt_irrefl 0)
  · have hsome : ((feasible_catalog_combos raw).find?
        (fun d =>
          decide (eff raw d = max_eff raw (feasible_catalog_combos raw)))).isSome := by
      rw [List.find?_isSome]
      exact ⟨cm, hcm, by simp [hceq.symm]⟩
    obtain ⟨c, hc⟩ := Option.isSome_iff_exists.mp hsome
    refine ⟨c, hc, ?_⟩
    rw [best_combo_fst, hcongr, hc]

/-! ### Soundness of the tracked best candidate -/

theorem foldl_best_step_sound (raw : Nat) (Q : List Nat → Prop) :
    ∀ (l : List (List Nat)) (acc : Option (List Nat) × ℚ),
      (∀ c, acc.1 = some c → c.sum ≤ raw ∧ Q c) → (∀ c ∈ l, Q c) →
      ∀ c, (l.foldl (best_step raw) acc).1 = some c → c.sum ≤ raw ∧ Q c := by
  intro l
  induction l with
  | nil => intro acc hacc _ c hc; exact hacc c hc
  | cons x l ih =>
      intro acc hacc hl c hc
      simp only [List.foldl_cons] at hc
      refine ih (best_step raw acc x) ?_
        (fun d hd => hl d (List.mem_cons_of_mem _ hd)) c hc
      intro d hd
      by_cases hx : x.sum ≤ raw
      · rw [best_step_feasible raw acc x hx] at hd
        by_cases hlt : acc.2 < eff raw x
        · rw [if_pos hlt] at hd
          obtain rfl : x = d := by simpa using hd
          exact ⟨hx, hl x (List.mem_cons_self _ _)⟩
        · rw [if_neg hlt] at hd
          exact hacc d hd
      · rw [best_step_infeasible raw acc x hx] at hd
        exact hacc d hd

theorem best_combo_sound {raw : Nat} {c : List Nat}
    (h : (best_combo raw).1 = some c) : c.sum ≤ raw ∧ c ∈ catalog_combos :=
  foldl_best_step_sound raw (· ∈ catalog_combos) catalog_combos (none, 0)
    (fun d hd => by simp at hd) (fun d hd => hd) c h

theorem foldl_best_step_id (raw : Nat) :
    ∀ (l : List (List Nat)) (acc : Option (List Nat) × ℚ),
      (∀ c ∈ l, ¬ c.sum ≤ raw) → l.foldl (best_step raw) acc = acc := by
  intro l
  induction l with
  | nil => intro acc _; rfl
  | cons x l ih =>
      intro acc h
      simp only [List.foldl_cons]
      rw [best_step_infeasible raw acc x (h x (List.mem_cons_self _ _)),
        ih acc (fun c hc => h c (List.mem_cons_of_mem _ hc))]

theorem best_combo_none_of_lt {raw : Nat} (h : raw < 1030) :
    (best_combo raw).1 = none := by
  unfold best_combo
  rw [foldl_best_step_id raw catalog_combos (none, 0)]
  intro c hc
  have h1 := (catalog_combo_bounds hc).1
  omega

/-! ### The returned dictionary -/

theorem mem_counter_keys_aux (l : List Nat) :
    ∀ (acc : List Nat) (x : Nat),
      x ∈ l.foldl (fun ks y => if y ∈ ks then ks else ks ++ [y]) acc ↔
        x ∈ acc ∨ x ∈ l := by
  induction l with
  | nil => intro acc x; simp
  | cons y l ih =>
      intro acc x
      simp only [List.foldl_cons]
      rw [ih]
      by_cases hy : y ∈ acc
      · rw [if_pos hy]
        constructor
        · rintro (h | h)
          · exact Or.inl h
          · exact Or.inr (List.mem_cons_of_mem _ h)
        · rintro (h | h)
          · exact Or.inl h
          · rcases List.mem_cons.mp h with rfl | h'
            · exact Or.inl hy
            · exact Or.inr h'
      · rw [if_neg hy]
        simp only [List.mem_append, List.mem_singleton, List.mem_cons]
        tauto

theorem mem_counter_keys (c : List Nat) (x : Nat) :
    x ∈ counter_keys c ↔ x ∈ c := by
  unfold counter_keys
  rw [mem_counter_keys_aux]
  simp

theorem dict_keys_insert (m : List (Nat × Nat)) (k v : Nat)
    (hk : k ∈ dict_keys m) : dict_keys (dict_insert m k v) = dict_keys m := by
  unfold dict_insert
  rw [if_pos hk]
  unfold dict_keys
  rw [List.map_map]
  apply List.map_congr_left
  intro p hp
  by_cases hpk : p.1 = k
  · simp [Function.comp, hpk]
  · simp [Function.comp, hpk]

theorem foldl_dict_insert (f : Nat → Nat) :
    ∀ (ks : List Nat) (m : List (Nat × Nat)),
      (∀ k ∈ ks, k ∈ dict_keys m) →
      ks.foldl (fun acc k => dict_insert acc k (f k)) m =
        m.map (fun p => if p.1 ∈ ks then (p.1, f p.1) else p) := by
  intro ks
  induction ks with
  | nil =>
      intro m _
      simp only [List.foldl_nil, List.not_mem_nil, if_false]
      symm
      have h : ∀ p ∈ m, (p.1, p.2) = p := fun p _ => rfl
      simpa using List.map_congr_left h
  | cons k ks ih =>
      intro m h
      simp only [List.foldl_cons]
      have hk : k ∈ dict_keys m := h k (List.mem_cons_self _ _)
      have hkeys : dict_keys (dict_insert m k (f k)) = dict_keys m :=
        dict_keys_insert m k (f k) hk
      rw [ih (dict_insert m k (f k))
        (fun k' hk' => hkeys ▸ h k' (List.mem_cons_of_mem _ hk'))]
      unfold dict_insert
      rw [if_pos hk, List.map_map]
      apply List.map_congr_left
      intro p hp
      simp only [Function.comp]
      by_cases h2 : p.1 = k
      · by_cases h1 : p.1 ∈ ks
        · simp [h1, h2]
        · simp [h1, h2]
      · by_cases h1 : p.1 ∈ ks
        · simp [h1, h2]
        · simp [h1, h2]

theorem suggest_eq_counts {raw : Nat} {combo : List Nat}
    (hb : (best_combo raw).1 = some combo)
    (hsub : ∀ x ∈ combo, x ∈ CUT_LENGTHS) :
    suggest_optimal_quantities raw =
      CUT_LENGTHS.map (fun l => (l, combo.count l)) := by
  unfold suggest_optimal_quantities
  rw [hb]
  dsimp only
  have hbase : dict_keys (CUT_LENGTHS.map (fun length => (length, 0))) =
      CUT_LENGTHS := by
    decide
  rw [foldl_dict_insert (fun l => combo.count l) (counter_keys combo) _
    (fun k hk => by
      rw [hbase]
      exact hsub k ((mem_counter_keys combo k).mp hk))]
  rw [List.map_map]
  apply List.map_congr_left
  intro l hl
  simp only [Function.comp]
  by_cases hmem : l ∈ combo
  · have h1 : l ∈ counter_keys combo := (mem_counter_keys combo l).mpr hmem
    simp [h1]
  · have h1 : l ∉ counter_keys combo :=
      fun h => hmem ((mem_counter_keys combo l).mp h)
    simp [h1, List.count_eq_zero_of_not_mem hmem]

theorem suggest_eq_zero_of_none {raw : Nat}
    (hb : (best_combo raw).1 = none) :
    suggest_optimal_quantities raw = CUT_LENGTHS.map (fun l => (l, 0)) := by
  unfold suggest_optimal_quantities
  rw [hb]

theorem suggest_all_zero_of_lt {raw : Nat} (h : raw < 1030) :
    suggest_optimal_quantities raw = CUT_LENGTHS.map (fun l => (l, 0)) :=
  suggest_eq_zero_of_none (best_combo_none_of_lt h)

theorem mem_catalog_combos_515 : [515, 515] ∈ catalog_combos := by
  have h : catalog_combos.head? = some [515, 515] := by with_unfolding_all rfl
  exact List.mem_of_mem_head? (by rw [h]; rfl)

theorem feasible_nonempty_of_ge {raw : Nat} (h : 1030 ≤ raw) :
    feasible_catalog_combos raw ≠ [] := by
  have hm : [515, 515] ∈ feasible_catalog_combos raw := by
    unfold feasible_catalog_combos
    rw [List.mem_filter]
    refine ⟨mem_catalog_combos_515, ?_⟩
    simp only [List.sum_cons, List.sum_nil, decide_eq_true_eq]
    omega
  exact List.ne_nil_of_mem hm

/-! ### Summing the returned dictionary -/

theorem sum_map_add_nat {α : Type} (l : List α) (f g : α → Nat) :
    (l.map (fun x => f x + g x)).sum = (l.map f).sum + (l.map g).sum := by
  induction l with
  | nil => rfl
  | cons x l ih =>
      simp only [List.map_cons, List.sum_cons, ih]
      omega

theorem sum_map_ite_single (w : Nat → Nat) :
    ∀ ks : List Nat, ks.Nodup → ∀ a : Nat, a ∈ ks →
      (ks.map (fun l => if a == l then w l else 0)).sum = w a := by
  intro ks
  induction ks with
  | nil => intro _ a ha; simp at ha
  | cons k ks ih =>
      intro hnd a ha
      have hnd' := List.nodup_cons.mp hnd
      rcases List.mem_cons.mp ha with rfl | ha'
      · simp only [List.map_cons, List.sum_cons, beq_self_eq_true, if_true]
        have hz : (ks.map (fun l => if a == l then w l else 0)).sum = 0 := by
          apply List.sum_eq_zero
          intro x hx
          obtain ⟨l, hl, rfl⟩ := List.mem_map.mp hx
          have hne : a ≠ l := fun h => hnd'.1 (h ▸ hl)
          simp [hne]
        rw [hz]
        simp
      · have hne : a ≠ k := fun h => hnd'.1 (h ▸ ha')
        have hka : (a == k) = false := by simp [hne]
        simp only [List.map_cons, List.sum_cons, hka, if_false]
        rw [ih hnd'.2 a ha']
        simp

theorem sum_map_mul_count (ks : List Nat) (hnd : ks.Nodup) :
    ∀ c : List Nat, (∀ x ∈ c, x ∈ ks) →
      (ks.map (fun l => l * c.count l)).sum = c.sum := by
  intro c
  induction c with
  | nil =>
      intro _
      apply List.sum_eq_zero
      intro x hx
      obtain ⟨l, _, rfl⟩ := List.mem_map.mp hx
      simp
  | cons a c ih =>
      intro h
      have ha : a ∈ ks := h a (List.mem_cons_self _ _)
      have hc : ∀ x ∈ c, x ∈ ks := fun x hx => h x (List.mem_cons_of_mem _ hx)
      have hstep : (ks.map (fun l => l * (a :: c).count l)).sum =
          (ks.map (fun l => l * c.count l + (if a == l then l else 0))).sum := by
        refine congrArg List.sum (List.map_congr_left ?_)
        intro l _
        rw [List.count_cons, Nat.mul_add]
        congr 1
        rw [mul_ite, Nat.mul_one, Nat.mul_zero]
      rw [hstep, sum_map_add_nat, ih hc,
        sum_map_ite_single (fun l => l) ks hnd a ha]
      simp only [List.sum_cons]
      omega

theorem sum_map_count (ks : List Nat) (hnd : ks.Nodup) :
    ∀ c : List Nat, (∀ x ∈ c, x ∈ ks) →
      (ks.map (fun l => c.count l)).sum = c.length := by
  intro c
  induction c with
  | nil =>
      intro _
      apply List.sum_eq_zero
      intro x hx
      obtain ⟨l, _, rfl⟩ := List.mem_map.mp hx
      simp
  | cons a c ih =>
      intro h
      have ha : a ∈ ks := h a (List.mem_cons_self _ _)
      have hc : ∀ x ∈ c, x ∈ ks := fun x hx => h x (List.mem_cons_of_mem _ hx)
      have hstep : (ks.map (fun l => (a :: c).count l)).sum =
          (ks.map (fun l => c.count l + (if a == l then 1 else 0))).sum := by
        refine congrArg List.sum (List.map_congr_left ?_)
        intro l _
        rw [List.count_cons]
      rw [hstep, sum_map_add_nat, ih hc,
        sum_map_ite_single (fun _ => 1) ks hnd a ha]
      simp [List.length_cons]

theorem dict_keys_map_pair (f : Nat → Nat) :
    dict_keys (CUT_LENGTHS.map (fun l => (l, f l))) = CUT_LENGTHS := by
  unfold dict_keys
  rw [List.map_map]
  have h : ∀ x ∈ CUT_LENGTHS,
      ((fun p : Nat × Nat => p.1) ∘ fun l => (l, f l)) x = id x :=
    fun x _ => rfl
  rw [List.map_congr_left h, List.map_id]

/-! ### Claims about `suggest_optimal_quantities` -/

/-- C5 (counterexample): at raw_length 600 — which is at least 515 —
`suggest_optimal_quantities` still returns the all-zero mapping,
because the search only tries multisets of 2 to 4 pieces; the claim
that all-zero occurs exactly when raw_length < 515 fails at 600. -/
theorem suggest_600_all_zero :
    (∀ p ∈ suggest_optimal_quantities 600, p.2 = 0) ∧ ¬ (600 < 515) := by
  constructor
  · intro p hp
    rw [suggest_all_zero_of_lt (by norm_num)] at hp
    obtain ⟨l, _, rfl⟩ := List.mem_map.mp hp
    rfl
  · decide

/-- C5 (amended): for positive raw_length, the suggestion is the
all-zero mapping iff raw_length < 1030 — twice the smallest catalog
length, since only multisets of 2 to 4 pieces are tried — and for every
raw_length ≥ 1030 some catalog length receives a positive quantity. -/
theorem suggest_all_zero_iff (raw : Nat) (hraw : 0 < raw) :
    (∀ p ∈ suggest_optimal_quantities raw, p.2 = 0) ↔ raw < 1030 := by
  constructor
  · intro h
    by_contra hge
    push_neg at hge
    obtain ⟨c, _, hbest⟩ := best_combo_winner hraw (feasible_nonempty_of_ge hge)
    obtain ⟨hsum, hcc⟩ := best_combo_sound hbest
    obtain ⟨_, ⟨hlen, _⟩, hsub⟩ := catalog_combo_bounds hcc
    cases c with
    | nil => simp at hlen
    | cons y ys =>
        have hy : y ∈ CUT_LENGTHS := hsub y (List.mem_cons_self _ _)
        have hmap := suggest_eq_counts hbest hsub
        have hpmem : (y, (y :: ys).count y) ∈ suggest_optimal_quantities raw := by
          rw [hmap]
          exact List.mem_map_of_mem _ hy
        have h2 : (y :: ys).count y = 0 := h _ hpmem
        rw [List.count_cons_self] at h2
        omega
  · intro h p hp
    rw [suggest_all_zero_of_lt h] at hp
    obtain ⟨l, _, rfl⟩ := List.mem_map.mp hp
    rfl

theorem suggest_all_zero_iff_w :
    0 < 600 ∧ ((∀ p ∈ suggest_optimal_quantities 600, p.2 = 0) ↔ 600 < 1030) :=
  ⟨by decide, suggest_all_zero_iff 600 (by decide)⟩

/-- C6: for every positive raw_length the suggested mapping has exactly
the 20 catalog lengths as keys, every quantity is a non-negative
integer, and the total length of the suggested pieces never exceeds the
raw length. -/
theorem suggest_mapping_shape (raw : Nat) (hraw : 0 < raw) :
    dict_keys (suggest_optimal_quantities raw) = CUT_LENGTHS ∧
    (∀ p ∈ suggest_optimal_quantities raw, 0 ≤ p.2) ∧
    ((suggest_optimal_quantities raw).map (fun p => p.1 * p.2)).sum ≤ raw := by
  rcases hb : (best_combo raw).1 with _ | c
  · rw [suggest_eq_zero_of_none hb]
    refine ⟨dict_keys_map_pair (fun _ => 0), fun p _ => Nat.zero_le _, ?_⟩
    have hz : ((CUT_LENGTHS.map (fun l => (l, 0))).map
        (fun p => p.1 * p.2)).sum = 0 := by
      apply List.sum_eq_zero
      intro x hx
      obtain ⟨p, hp, rfl⟩ := List.mem_map.mp hx
      obtain ⟨l, _, rfl⟩ := List.mem_map.mp hp
      simp
    rw [hz]
    exact Nat.zero_le _
  · obtain ⟨hsum, hcc⟩ := best_combo_sound hb
    have hsub := (catalog_combo_bounds hcc).2.2
    rw [suggest_eq_counts hb hsub]
    refine ⟨dict_keys_map_pair _, fun p _ => Nat.zero_le _, ?_⟩
    have hstep : ((CUT_LENGTHS.map (fun l => (l, c.count l))).map
        (fun p => p.1 * p.2)).sum =
        (CUT_LENGTHS.map (fun l => l * c.count l)).sum := by
      rw [List.map_map]
      rfl
    rw [hstep, sum_map_mul_count CUT_LENGTHS cut_lengths_nodup c hsub]
    exact hsum

theorem suggest_mapping_shape_w :
    dict_keys (suggest_optimal_quantities 1030) = CUT_LENGTHS ∧
    (∀ p ∈ suggest_optimal_quantities 1030, 0 ≤ p.2) ∧
    ((suggest_optimal_quantities 1030).map (fun p => p.1 * p.2)).sum ≤ 1030 :=
  suggest_mapping_shape 1030 (by decide)

/-- C7: whenever some candidate fits, the winning multiset — whose
per-length counts the suggester returns over the catalog — is the first
candidate, in generation order, whose efficiency equals the maximum
efficiency over all feasible candidates; the best is replaced only on
strict improvement, so later equal-efficiency candidates never displace
it. -/
theorem winner_is_first_max (raw : Nat) (hraw : 0 < raw)
    (hne : feasible_catalog_combos raw ≠ []) :
    ∃ c, (feasible_catalog_combos raw).find?
        (fun d =>
          decide (eff raw d = max_eff raw (feasible_catalog_combos raw))) =
          some c ∧
      (best_combo raw).1 = some c ∧
      suggest_optimal_quantities raw =
        CUT_LENGTHS.map (fun l => (l, c.count l)) := by
  obtain ⟨c, hfind, hbest⟩ := best_combo_winner hraw hne
  obtain ⟨_, hcc⟩ := best_combo_sound hbest
  exact ⟨c, hfind, hbest,
    suggest_eq_counts hbest (catalog_combo_bounds hcc).2.2⟩

theorem winner_is_first_max_w :
    0 < 1030 ∧ feasible_catalog_combos 1030 ≠ [] ∧
    ∃ c, (feasible_catalog_combos 1030).find?
        (fun d =>
          decide (eff 1030 d = max_eff 1030 (feasible_catalog_combos 1030))) =
          some c ∧
      (best_combo 1030).1 = some c ∧
      suggest_optimal_quantities 1030 =
        CUT_LENGTHS.map (fun l => (l, c.count l)) :=
  ⟨by decide, feasible_nonempty_of_ge (by decide),
    winner_is_first_max 1030 (by decide) (feasible_nonempty_of_ge (by decide))⟩

/-- C9: for every positive raw_length the total suggested quantity is
either 0 or between 2 and 4 — a single piece is never suggested — and
every raw_length below 1030 yields the all-zero mapping even though a
single catalog piece alone would fit once raw_length ≥ 515. -/
theorem suggest_quantity_bounds (raw : Nat) (hraw : 0 < raw) :
    (((suggest_optimal_quantities raw).map (fun p => p.2)).sum = 0 ∨
      (2 ≤ ((suggest_optimal_quantities raw).map (fun p => p.2)).sum ∧
        ((suggest_optimal_quantities raw).map (fun p => p.2)).sum ≤ 4)) ∧
    (raw < 1030 → ∀ p ∈ suggest_optimal_quantities raw, p.2 = 0) := by
  constructor
  · rcases hb : (best_combo raw).1 with _ | c
    · left
      rw [suggest_eq_zero_of_none hb, List.map_map]
      apply List.sum_eq_zero
      intro x hx
      obtain ⟨l, _, rfl⟩ := List.mem_map.mp hx
      rfl
    · right
      obtain ⟨hsum, hcc⟩ := best_combo_sound hb
      obtain ⟨_, ⟨hl2, hl4⟩, hsub⟩ := catalog_combo_bounds hcc
      rw [suggest_eq_counts hb hsub, List.map_map]
      have hq : (CUT_LENGTHS.map
          ((fun p : Nat × Nat => p.2) ∘ fun l => (l, c.count l))).sum =
          c.length := by
        have he : CUT_LENGTHS.map
            ((fun p : Nat × Nat => p.2) ∘ fun l => (l, c.count l)) =
            CUT_LENGTHS.map (fun l => c.count l) := rfl
        rw [he, sum_map_count CUT_LENGTHS cut_lengths_nodup c hsub]
      rw [hq]
      exact ⟨hl2, hl4⟩
  · intro h p hp
    rw [suggest_all_zero_of_lt h] at hp
    obtain ⟨l, _, rfl⟩ := List.mem_map.mp hp
    rfl

theorem suggest_quantity_bounds_w :
    (((suggest_optimal_quantities 600).map (fun p => p.2)).sum = 0 ∨
      (2 ≤ ((suggest_optimal_quantities 600).map (fun p => p.2)).sum ∧
        ((suggest_optimal_quantities 600).map (fun p => p.2)).sum ≤ 4)) ∧
    (600 < 1030 → ∀ p ∈ suggest_optimal_quantities 600, p.2 = 0) :=
  suggest_quantity_bounds 600 (by decide)

end Traverza
